import Mathlib

/-!
Verification of the molecular analysis and derivative-enumeration core of
the czech-cbd-analysis repository.

The pure rule logic (Lipinski evaluation, heuristic ADMET labels, batch
analysis) is embedded directly from rdkit_analysis.py.  The derivative
pipeline of generate_derivatives.py delegates parsing, canonical encoding
and substructure matching to the external RDKit toolkit; those three
components are modelled here from the specification (sections 4.1 to 4.3)
over an explicit molecular-graph type, restricted to the single-bond
C/N/O fragment of the encoding language that the claims exercise.  The
iteration order of a Python set of strings depends on the per-process
string hash seed; it is modelled by a hash parameter `h` threaded through
every function that converts a set to a list.
-/

/-- Descriptor record: the fields of the descriptor dictionary built by
compute_descriptors that the rule logic reads.  Python stores floats; we
use rationals. -/
structure Descriptors where
  molWt : ℚ
  logP : ℚ
  tpsa : ℚ
  numHDonors : ℚ
  numHAcceptors : ℚ
  numRotatableBonds : ℚ
deriving DecidableEq, Repr

/-- The four named booleans of the violations dictionary returned by
evaluate_lipinski. -/
structure LipinskiFlags where
  molWtLe500 : Bool
  logPLe5 : Bool
  hbdLe5 : Bool
  hbaLe10 : Bool
deriving DecidableEq, Repr

/-- Embedding of evaluate_lipinski (rdkit_analysis.py lines 93 to 106):
four threshold booleans and an overall pass flag that is their
conjunction. -/
def evaluate_lipinski (d : Descriptors) : Bool × LipinskiFlags :=
  let v : LipinskiFlags :=
    { molWtLe500 := decide (d.molWt ≤ 500)
      logPLe5 := decide (d.logP ≤ 5)
      hbdLe5 := decide (d.numHDonors ≤ 5)
      hbaLe10 := decide (d.numHAcceptors ≤ 10) }
  (v.molWtLe500 && v.logPLe5 && v.hbdLe5 && v.hbaLe10, v)

/-- The four qualitative labels returned by heuristic_admet. -/
structure AdmetLabels where
  absorption : String
  brainPenetration : String
  toxicity : String
  clearance : String
deriving DecidableEq, Repr

/-- Embedding of heuristic_admet (rdkit_analysis.py lines 109 to 156):
each category is an if/elif chain ending in a default label. -/
def heuristic_admet (d : Descriptors) : AdmetLabels :=
  let absLabel :=
    if d.molWt > 600 ∨ d.numRotatableBonds > 10 then "poor"
    else if d.logP < 0 ∨ d.tpsa > 140 then "poor"
    else if d.logP > 5 then "moderate"
    else "good"
  let brain :=
    if d.logP > 2 ∧ d.tpsa < 70 then "likely"
    else if d.logP > 1 ∧ d.tpsa < 90 then "possible"
    else "unlikely"
  let toxicity :=
    if d.logP > 5 ∨ d.molWt > 600 then "high"
    else if d.numHDonors > 5 ∨ d.numHAcceptors > 10 then "moderate"
    else "low"
  let clearance :=
    if d.logP < 2 ∧ d.molWt < 350 then "fast"
    else if d.logP > 4 then "slow"
    else "moderate"
  { absorption := absLabel
    brainPenetration := brain
    toxicity := toxicity
    clearance := clearance }

/-- First-match evaluation of an ordered rule table: the label of the
first row whose condition holds, else the default.  This follows the
wording of specification section 4.7 and is compared with the source
embedding heuristic_admet. -/
def evalRuleTable (d : Descriptors) : List ((Descriptors → Bool) × String) → String → String
  | [], dflt => dflt
  | (c, l) :: rows, dflt => if c d then l else evalRuleTable d rows dflt

/-- The Absorption rule rows of specification section 4.7. -/
def absorptionTable : List ((Descriptors → Bool) × String) :=
  [ (fun d => decide (d.molWt > 600 ∨ d.numRotatableBonds > 10), "poor")
  , (fun d => decide (d.logP < 0 ∨ d.tpsa > 140), "poor")
  , (fun d => decide (d.logP > 5), "moderate") ]

/-- The BrainPenetration rule rows of specification section 4.7. -/
def brainTable : List ((Descriptors → Bool) × String) :=
  [ (fun d => decide (d.logP > 2 ∧ d.tpsa < 70), "likely")
  , (fun d => decide (d.logP > 1 ∧ d.tpsa < 90), "possible") ]

/-- The Toxicity rule rows of specification section 4.7. -/
def toxicityTable : List ((Descriptors → Bool) × String) :=
  [ (fun d => decide (d.logP > 5 ∨ d.molWt > 600), "high")
  , (fun d => decide (d.numHDonors > 5 ∨ d.numHAcceptors > 10), "moderate") ]

/-- The Clearance rule rows of specification section 4.7. -/
def clearanceTable : List ((Descriptors → Bool) × String) :=
  [ (fun d => decide (d.logP < 2 ∧ d.molWt < 350), "fast")
  , (fun d => decide (d.logP > 4), "slow") ]

/-- ADMET labels computed from the four first-match rule tables of the
specification. -/
def admetFromTables (d : Descriptors) : AdmetLabels :=
  { absorption := evalRuleTable d absorptionTable "good"
    brainPenetration := evalRuleTable d brainTable "unlikely"
    toxicity := evalRuleTable d toxicityTable "low"
    clearance := evalRuleTable d clearanceTable "moderate" }

lemma absorption_eq_table (d : Descriptors) :
    (heuristic_admet d).absorption = evalRuleTable d absorptionTable "good" := by
  simp only [heuristic_admet, evalRuleTable, absorptionTable, decide_eq_true_eq]

lemma brain_eq_table (d : Descriptors) :
    (heuristic_admet d).brainPenetration = evalRuleTable d brainTable "unlikely" := by
  simp only [heuristic_admet, evalRuleTable, brainTable, decide_eq_true_eq]

lemma toxicity_eq_table (d : Descriptors) :
    (heuristic_admet d).toxicity = evalRuleTable d toxicityTable "low" := by
  simp only [heuristic_admet, evalRuleTable, toxicityTable, decide_eq_true_eq]

lemma clearance_eq_table (d : Descriptors) :
    (heuristic_admet d).clearance = evalRuleTable d clearanceTable "moderate" := by
  simp only [heuristic_admet, evalRuleTable, clearanceTable, decide_eq_true_eq]

/-- C2: the Lipinski pass flag is true iff all four sub-rules hold, and a
descriptor set with MolWt = 650 reports the MolWt flag false and the pass
flag false whatever the other descriptors are. -/
theorem lipinski_pass_iff_all_rules (d : Descriptors) :
    ((evaluate_lipinski d).1 = true ↔
      d.molWt ≤ 500 ∧ d.logP ≤ 5 ∧ d.numHDonors ≤ 5 ∧ d.numHAcceptors ≤ 10) ∧
    (d.molWt = 650 →
      (evaluate_lipinski d).2.molWtLe500 = false ∧ (evaluate_lipinski d).1 = false) := by
  constructor
  · simp [evaluate_lipinski, and_assoc]
  · intro h
    have hlt : ¬ (d.molWt ≤ 500) := by rw [h]; norm_num
    simp [evaluate_lipinski, hlt]

/-- Witness for C2 at a concrete descriptor set with MolWt = 650. -/
theorem lipinski_pass_iff_all_rules_witness :
    (evaluate_lipinski ⟨650, 1, 30, 1, 2, 3⟩).2.molWtLe500 = false ∧
    (evaluate_lipinski ⟨650, 1, 30, 1, 2, 3⟩).1 = false :=
  (lipinski_pass_iff_all_rules ⟨650, 1, 30, 1, 2, 3⟩).2 rfl

/-- C3: heuristic_admet agrees with first-match evaluation of the ordered
rule tables of specification section 4.7, and any descriptor set with
MolWt = 700 and RotatableBonds = 2 gets Absorption poor because the first
matching row wins. -/
theorem admet_first_match (d : Descriptors) :
    heuristic_admet d = admetFromTables d ∧
    (d.molWt = 700 → d.numRotatableBonds = 2 →
      (heuristic_admet d).absorption = "poor") := by
  constructor
  · have h1 := absorption_eq_table d
    have h2 := brain_eq_table d
    have h3 := toxicity_eq_table d
    have h4 := clearance_eq_table d
    simp only [admetFromTables, ← h1, ← h2, ← h3, ← h4]
  · intro hw _
    have hgt : d.molWt > 600 ∨ d.numRotatableBonds > 10 := by
      left; rw [hw]; norm_num
    simp [heuristic_admet, hgt]

/-- Witness for C3 at a concrete descriptor set with MolWt = 700 and
RotatableBonds = 2. -/
theorem admet_first_match_witness :
    (heuristic_admet ⟨700, 3, 50, 1, 2, 2⟩).absorption = "poor" :=
  (admet_first_match ⟨700, 3, 50, 1, 2, 2⟩).2 rfl rfl

/-- Molecular graph: element symbols indexed by position, and an
undirected bond list of index pairs.  The modelled fragment uses single
bonds and neutral atoms only, which is all the claims exercise. -/
structure Mol where
  atoms : List String
  bonds : List (Nat × Nat)
deriving DecidableEq, Repr, Inhabited

/-- Heavy-atom degree of atom `i`: the number of bonds incident to it. -/
def Mol.degree (m : Mol) (i : Nat) : Nat :=
  (m.bonds.filter (fun b => b.1 == i || b.2 == i)).length

/-- Whether atoms `i` and `j` are bonded (in either orientation). -/
def Mol.bonded (m : Mol) (i j : Nat) : Bool :=
  m.bonds.any (fun b => (b.1 == i && b.2 == j) || (b.1 == j && b.2 == i))

/-- Ascending-sorted list of the neighbours of atom `i`. -/
def Mol.neighbors (m : Mol) (i : Nat) : List Nat :=
  List.insertionSort (· ≤ ·)
    (m.bonds.filterMap (fun b =>
      if b.1 = i then some b.2 else if b.2 = i then some b.1 else none))

/-- Element symbol recognised by the modelled encoding fragment. -/
def elemOfChar (c : Char) : Option String :=
  if c = 'C' then some "C"
  else if c = 'N' then some "N"
  else if c = 'O' then some "O"
  else none

/-- Normal valence of the supported elements (single-bond fragment). -/
def defaultValence : String → Nat
  | "C" => 4
  | "N" => 3
  | "O" => 2
  | _ => 0

/-- Parser state: atoms and bonds built so far, the previous atom a new
atom bonds to, and the stack of branch-origin atoms for open brackets. -/
structure ParseState where
  atoms : List String
  bonds : List (Nat × Nat)
  prev : Option Nat
  stack : List Nat
deriving Repr

/-- Modelled from the spec: section 4.1 Encoding Parser, the character
scanner.  The repository delegates parsing to the external toolkit, so
the linear-encoding grammar is modelled here: element letters append an
atom bonded to the previous one, an opening bracket saves the branch
origin, a closing bracket restores it; unknown characters, a bracket
with no origin, an unmatched closing bracket, or an unclosed bracket at
the end make parsing fail with no partial result. -/
def parseChars : List Char → ParseState → Option ParseState
  | [], st => if st.stack = [] then some st else none
  | c :: rest, st =>
    match elemOfChar c with
    | some el =>
      let idx := st.atoms.length
      let bonds :=
        match st.prev with
        | some p => st.bonds ++ [(p, idx)]
        | none => st.bonds
      parseChars rest { atoms := st.atoms ++ [el], bonds := bonds, prev := some idx, stack := st.stack }
    | none =>
      if c = '(' then
        match st.prev with
        | some p => parseChars rest { st with stack := p :: st.stack }
        | none => none
      else if c = ')' then
        match st.stack with
        | p :: s => parseChars rest { st with prev := some p, stack := s }
        | [] => none
      else none

/-- Valence validation: every atom carries at most its normal valence in
bonds (the modelled fragment has single bonds only). -/
def valenceOk (m : Mol) : Bool :=
  (List.range m.atoms.length).all
    (fun i => decide (m.degree i ≤ defaultValence (m.atoms.getD i "")))

/-- Modelled from the spec: section 4.1 Encoding Parser.  Parse an
encoding into a molecular graph, validating valence; returns none on any
structural inconsistency. -/
def MolFromSmiles (s : String) : Option Mol :=
  match parseChars s.data { atoms := [], bonds := [], prev := none, stack := [] } with
  | none => none
  | some st =>
    let m : Mol := { atoms := st.atoms, bonds := st.bonds }
    if valenceOk m then some m else none

/-- Atomic-number rank of the supported elements, the tie-break key the
specification names. -/
def elemRank : String → Nat
  | "C" => 6
  | "N" => 7
  | "O" => 8
  | _ => 0

/-- Total order used to pick the traversal root: degree, then atomic
number, then stable index. -/
def rootLt (m : Mol) (i j : Nat) : Bool :=
  if m.degree i ≠ m.degree j then decide (m.degree i < m.degree j)
  else if elemRank (m.atoms.getD i "") ≠ elemRank (m.atoms.getD j "") then
    decide (elemRank (m.atoms.getD i "") < elemRank (m.atoms.getD j ""))
  else decide (i < j)

/-- Least remaining atom under `rootLt`, used as the traversal root. -/
def pickRoot (m : Mol) : List Nat → Option Nat
  | [] => none
  | i :: rest =>
    match pickRoot m rest with
    | none => some i
    | some b => if rootLt m i b then some i else some b

/-- Work item of the canonical writer: an atom to visit or a literal to
emit. -/
inductive Tok where
  | atom (i : Nat)
  | lit (s : String)
deriving Repr

/-- Bracketing of a child list: every child but the last is wrapped in
brackets. -/
def childItems : List Nat → List Tok
  | [] => []
  | [c] => [Tok.atom c]
  | c :: cs => Tok.lit "(" :: Tok.atom c :: Tok.lit ")" :: childItems cs

/-- Modelled from the spec: section 4.2 Canonical Encoder, the traversal
loop.  Fuel-bounded worklist traversal from a root: visiting an atom
emits its element symbol and schedules its unvisited neighbours in
ascending order. -/
def dfsRun (m : Mol) : Nat → List Tok → List Nat → String → String × List Nat
  | 0, _, vis, out => (out, vis)
  | _ + 1, [], vis, out => (out, vis)
  | fuel + 1, Tok.lit s :: rest, vis, out => dfsRun m fuel rest vis (out ++ s)
  | fuel + 1, Tok.atom i :: rest, vis, out =>
    if i ∈ vis then dfsRun m fuel rest vis out
    else
      let vis2 := i :: vis
      let cs := (m.neighbors i).filter (fun j => decide (j ∉ vis2))
      dfsRun m fuel (childItems cs ++ rest) vis2 (out ++ m.atoms.getD i "?")

/-- Fuel bound that covers every token the writer can ever schedule. -/
def dfsFuel (m : Mol) : Nat :=
  4 * (m.atoms.length + m.bonds.length) + 4

/-- Modelled from the spec: section 4.2 Canonical Encoder, the component
loop.  Encode every connected component, root chosen by `rootLt`,
components joined by a dot. -/
def molComponents (m : Mol) : Nat → List Nat → String → String
  | 0, _, out => out
  | fuel + 1, vis, out =>
    let rem := (List.range m.atoms.length).filter (fun i => decide (i ∉ vis))
    match pickRoot m rem with
    | none => out
    | some r =>
      let p := dfsRun m (dfsFuel m) [Tok.atom r] vis ""
      molComponents m fuel p.2 (if out = "" then p.1 else out ++ "." ++ p.1)

/-- Modelled from the spec: section 4.2 Canonical Encoder.  Deterministic
textual form of a molecular graph. -/
def MolToSmiles (m : Mol) : String :=
  molComponents m (m.atoms.length + 1) [] ""

/-- An atom matching the CH2 pattern atom: carbon of heavy degree two. -/
def isCH2 (m : Mol) (i : Nat) : Bool :=
  m.atoms.getD i "" == "C" && m.degree i == 2

/-- An atom matching the CH3 pattern atom: carbon of heavy degree one. -/
def isCH3 (m : Mol) (i : Nat) : Bool :=
  m.atoms.getD i "" == "C" && m.degree i == 1

/-- Modelled from the spec: section 4.3 Pattern Matcher, the
terminal-chain pattern.  All injective embeddings of the three-atom
CH2-CH2-CH3 path, enumerated in ascending index order. -/
def chainMatchesRaw (m : Mol) : List (Nat × Nat × Nat) :=
  (List.range m.atoms.length).flatMap (fun a =>
    (List.range m.atoms.length).flatMap (fun b =>
      (List.range m.atoms.length).filterMap (fun c =>
        if isCH2 m a && isCH2 m b && isCH3 m c && m.bonded a b && m.bonded b c
            && !(a == b) && !(b == c) && !(a == c)
        then some (a, b, c) else none)))

/-- Sorted atom set of a match, the key the toolkit deduplicates by. -/
def matchKey (t : Nat × Nat × Nat) : List Nat :=
  List.insertionSort (· ≤ ·) [t.1, t.2.1, t.2.2]

/-- Keep the first match for each atom set, as the toolkit search does by
default. -/
def dedupMatches (seen : List (List Nat)) : List (Nat × Nat × Nat) → List (Nat × Nat × Nat)
  | [] => []
  | t :: ts =>
    if matchKey t ∈ seen then dedupMatches seen ts
    else t :: dedupMatches (matchKey t :: seen) ts

/-- Modelled from the spec: section 4.3 Pattern Matcher.  The occurrence
sequence of the terminal-chain pattern, unique per atom set. -/
def chainMatches (m : Mol) : List (Nat × Nat × Nat) :=
  dedupMatches [] (chainMatchesRaw m)

/-- Modelled from the spec: section 4.3 Pattern Matcher.  Occurrences of
the terminal-methyl pattern, in ascending atom order. -/
def methylMatches (m : Mol) : List Nat :=
  (List.range m.atoms.length).filter (fun c => isCH3 m c)

/-- Index adjustment after deleting atom `i`: indices above `i` shift
down by one, as the toolkit renumbers on removal. -/
def shiftIdx (i j : Nat) : Nat :=
  if i < j then j - 1 else j

/-- Embedding of RemoveAtom as used at generate_derivatives.py line 84:
delete the atom at index `i`, drop its bonds, renumber the rest; an index
out of range raises. -/
def removeAtom (m : Mol) (i : Nat) : Except String Mol :=
  if i < m.atoms.length then
    Except.ok
      { atoms := m.atoms.eraseIdx i
        bonds := (m.bonds.filter (fun b => !(b.1 == i) && !(b.2 == i))).map
          (fun b => (shiftIdx i b.1, shiftIdx i b.2)) }
  else Except.error "Range Error"

/-- Embedding of the growth loop (generate_derivatives.py lines 73 to
78): append `k` carbons in a chain from `endIdx`, the attachment point
moving to each new atom. -/
def chainGrow (rw : Mol) (endIdx : Nat) : Nat → Mol
  | 0 => rw
  | k + 1 =>
    let newIdx := rw.atoms.length
    chainGrow { atoms := rw.atoms ++ ["C"], bonds := rw.bonds ++ [(endIdx, newIdx)] } newIdx k

/-- Embedding of the shrink loop (generate_derivatives.py lines 79 to
86): `k` iterations that test the degree of the original anchor atom in
the ORIGINAL molecule (`origDeg`, never updated by the loop) and remove
the atom at the fixed index `endIdx` of the working molecule. -/
def chainShrink (origDeg : Nat) (endIdx : Nat) : Nat → Mol → Except String Mol
  | 0, rw => Except.ok rw
  | k + 1, rw =>
    if origDeg = 1 then
      match removeAtom rw endIdx with
      | Except.ok rw2 => chainShrink origDeg endIdx k rw2
      | Except.error e => Except.error e
    else Except.ok rw

/-- Embedding of the per-match edit body of propose_chain_variants
(generate_derivatives.py lines 69 to 87): copy the molecule, then grow or
shrink the chain at the matched terminal atom. -/
def chainEdit (mol : Mol) (endIdx : Nat) (delta : Int) : Except String Mol :=
  if delta > 0 then Except.ok (chainGrow mol endIdx delta.toNat)
  else if delta < 0 then chainShrink (mol.degree endIdx) endIdx (-delta).toNat mol
  else Except.ok mol

/-- First-occurrence deduplication of a string list, the element order a
Python set preserves before iteration. -/
def pyDedup (seen : List String) : List String → List String
  | [] => []
  | x :: xs => if x ∈ seen then pyDedup seen xs else x :: pyDedup (x :: seen) xs

/-- Conversion of a Python set of strings to a list: deduplicate, then
order by the per-process string hash `h` (stable).  The hash seed is
randomised per process, so `h` is a parameter. -/
def pySetList (h : String → Nat) (l : List String) : List String :=
  List.insertionSort (fun a b => h a ≤ h b) (pyDedup [] l)

/-- The match loop of propose_chain_variants (generate_derivatives.py
lines 65 to 88): one edited encoding per occurrence, a raised edit error
aborting the whole call. -/
def editAll (mol : Mol) (delta : Int) : List (Nat × Nat × Nat) → Except String (List String)
  | [] => Except.ok []
  | t :: ts =>
    match chainEdit mol t.2.2 delta with
    | Except.error e => Except.error e
    | Except.ok rw =>
      match editAll mol delta ts with
      | Except.error e => Except.error e
      | Except.ok l => Except.ok (MolToSmiles rw :: l)

/-- Embedding of propose_chain_variants (generate_derivatives.py lines
45 to 89): empty result on parse failure, the raw input back when the
pattern finds nothing, else the deduplicated edited encodings. -/
def propose_chain_variants (h : String → Nat) (smiles : String) (delta : Int) :
    Except String (List String) :=
  match MolFromSmiles smiles with
  | none => Except.ok []
  | some mol =>
    let ms := chainMatches mol
    if ms = [] then Except.ok [smiles]
    else
      match editAll mol delta ms with
      | Except.error e => Except.error e
      | Except.ok variants =>
        let l := pySetList h variants
        Except.ok (if l = [] then [smiles] else l)

/-- Product of the hydroxylation reaction at methyl carbon `c`: a new
oxygen atom bonded to it. -/
def hydroxylateAt (mol : Mol) (c : Nat) : Mol :=
  { atoms := mol.atoms ++ ["O"], bonds := mol.bonds ++ [(c, mol.atoms.length)] }

/-- Embedding of propose_hydroxylated (generate_derivatives.py lines 93
to 111): empty result on parse failure, one product per terminal-methyl
occurrence, deduplicated, the raw input back when there is none. -/
def propose_hydroxylated (h : String → Nat) (smiles : String) : List String :=
  match MolFromSmiles smiles with
  | none => []
  | some mol =>
    let variants := (methylMatches mol).map (fun c => MolToSmiles (hydroxylateAt mol c))
    let l := pySetList h variants
    if l = [] then [smiles] else l

/-- Embedding of propose_derivatives (generate_derivatives.py lines 115
to 125): chain variants for delta one and minus one, hydroxylation
products, and always the raw input string, gathered into a set and
listed. -/
def propose_derivatives (h : String → Nat) (smiles : String) : Except String (List String) :=
  match propose_chain_variants h smiles 1 with
  | Except.error e => Except.error e
  | Except.ok v1 =>
    match propose_chain_variants h smiles (-1) with
    | Except.error e => Except.error e
    | Except.ok v2 =>
      Except.ok (pySetList h (v1 ++ v2 ++ propose_hydroxylated h smiles ++ [smiles]))

/-- Hash model of a run whose string hashes are all equal: set iteration
keeps insertion order. -/
def hZero : String → Nat := fun _ => 0

/-- Hash model of a run hashing strings by length. -/
def hLen : String → Nat := fun s => s.length

lemma mem_pyDedup (a : String) (l : List String) :
    ∀ seen, a ∈ pyDedup seen l ↔ a ∈ l ∧ a ∉ seen := by
  induction l with
  | nil => intro seen; simp [pyDedup]
  | cons x xs ih =>
    intro seen
    by_cases hx : x ∈ seen
    · rw [pyDedup, if_pos hx, ih seen]
      constructor
      · rintro ⟨h1, h2⟩
        exact ⟨List.mem_cons_of_mem _ h1, h2⟩
      · rintro ⟨h1, h2⟩
        rcases List.mem_cons.mp h1 with rfl | h1
        · exact absurd hx h2
        · exact ⟨h1, h2⟩
    · rw [pyDedup, if_neg hx]
      constructor
      · intro hmem
        rcases List.mem_cons.mp hmem with rfl | hmem
        · exact ⟨List.mem_cons_self _ _, hx⟩
        · have h2 := (ih (x :: seen)).mp hmem
          exact ⟨List.mem_cons_of_mem _ h2.1, fun hs => h2.2 (List.mem_cons_of_mem _ hs)⟩
      · rintro ⟨h1, h2⟩
        by_cases hax : a = x
        · subst hax; exact List.mem_cons_self _ _
        · rcases List.mem_cons.mp h1 with rfl | h1
          · exact absurd rfl hax
          · refine List.mem_cons_of_mem _ ((ih (x :: seen)).mpr ⟨h1, ?_⟩)
            intro hs
            rcases List.mem_cons.mp hs with hs | hs
            · exact hax hs
            · exact h2 hs

lemma pyDedup_nodup (l : List String) : ∀ seen, (pyDedup seen l).Nodup := by
  induction l with
  | nil => intro seen; simp [pyDedup]
  | cons x xs ih =>
    intro seen
    by_cases hx : x ∈ seen
    · rw [pyDedup, if_pos hx]; exact ih seen
    · rw [pyDedup, if_neg hx]
      refine List.nodup_cons.mpr ⟨?_, ih (x :: seen)⟩
      intro hmem
      exact ((mem_pyDedup x xs (x :: seen)).mp hmem).2 (List.mem_cons_self _ _)

lemma pySetList_perm_dedup (h : String → Nat) (l : List String) :
    List.Perm (pySetList h l) (pyDedup [] l) :=
  List.perm_insertionSort _ _

lemma mem_pySetList (h : String → Nat) (a : String) (l : List String) :
    a ∈ pySetList h l ↔ a ∈ l := by
  rw [(pySetList_perm_dedup h l).mem_iff, mem_pyDedup]
  simp

lemma pySetList_nodup (h : String → Nat) (l : List String) : (pySetList h l).Nodup :=
  ((pySetList_perm_dedup h l).nodup_iff).mpr (pyDedup_nodup l [])

lemma pySetList_eq_nil_iff (h : String → Nat) (l : List String) :
    pySetList h l = [] ↔ l = [] := by
  constructor
  · intro he
    cases l with
    | nil => rfl
    | cons x xs =>
      have : x ∈ pySetList h (x :: xs) := (mem_pySetList h x _).mpr (List.mem_cons_self _ _)
      rw [he] at this
      cases this
  · intro he
    subst he
    rfl

lemma mem_dedupMatches {t : Nat × Nat × Nat} (ts : List (Nat × Nat × Nat)) :
    ∀ seen, t ∈ dedupMatches seen ts → t ∈ ts := by
  induction ts with
  | nil => intro seen hmem; exact hmem
  | cons x xs ih =>
    intro seen hmem
    rw [dedupMatches] at hmem
    by_cases hx : matchKey x ∈ seen
    · rw [if_pos hx] at hmem
      exact List.mem_cons_of_mem _ (ih seen hmem)
    · rw [if_neg hx] at hmem
      rcases List.mem_cons.mp hmem with rfl | hmem
      · exact List.mem_cons_self _ _
      · exact List.mem_cons_of_mem _ (ih _ hmem)

lemma chainMatchesRaw_third_lt {m : Mol} {t : Nat × Nat × Nat}
    (ht : t ∈ chainMatchesRaw m) : t.2.2 < m.atoms.length := by
  rw [chainMatchesRaw] at ht
  simp only [List.mem_flatMap, List.mem_filterMap, List.mem_range] at ht
  obtain ⟨a, _, b, _, c, hc, hif⟩ := ht
  by_cases hcond :
      (isCH2 m a && isCH2 m b && isCH3 m c && m.bonded a b && m.bonded b c
        && !(a == b) && !(b == c) && !(a == c)) = true
  · rw [if_pos hcond] at hif
    injection hif with hif
    subst hif
    exact hc
  · rw [if_neg hcond] at hif
    cases hif

lemma chainMatches_third_lt {m : Mol} {t : Nat × Nat × Nat}
    (ht : t ∈ chainMatches m) : t.2.2 < m.atoms.length :=
  chainMatchesRaw_third_lt (mem_dedupMatches _ _ ht)

lemma chainEdit_one_ok (m : Mol) (e : Nat) :
    chainEdit m e 1 = Except.ok (chainGrow m e 1) := by
  norm_num [chainEdit]

lemma chainEdit_neg_one_ok (m : Mol) (e : Nat) (he : e < m.atoms.length) :
    ∃ rw, chainEdit m e (-1) = Except.ok rw := by
  by_cases hd : m.degree e = 1
  · refine ⟨{ atoms := m.atoms.eraseIdx e
            , bonds := (m.bonds.filter (fun b => !(b.1 == e) && !(b.2 == e))).map
                (fun b => (shiftIdx e b.1, shiftIdx e b.2)) }, ?_⟩
    norm_num [chainEdit, chainShrink, removeAtom, hd, he]
  · exact ⟨m, by norm_num [chainEdit, chainShrink, hd]⟩

lemma editAll_ok (m : Mol) (δ : Int) (hδ : δ = 1 ∨ δ = -1) :
    ∀ ms : List (Nat × Nat × Nat), (∀ t ∈ ms, t.2.2 < m.atoms.length) →
      ∃ l, editAll m δ ms = Except.ok l := by
  intro ms
  induction ms with
  | nil => intro _; exact ⟨[], rfl⟩
  | cons t ts ih =>
    intro hall
    have ht : t.2.2 < m.atoms.length := hall t (List.mem_cons_self _ _)
    have hok : ∃ rw, chainEdit m t.2.2 δ = Except.ok rw := by
      rcases hδ with rfl | rfl
      · exact ⟨_, chainEdit_one_ok m t.2.2⟩
      · exact chainEdit_neg_one_ok m t.2.2 ht
    obtain ⟨rw, hrw⟩ := hok
    obtain ⟨l, hl⟩ := ih (fun x hx => hall x (List.mem_cons_of_mem _ hx))
    exact ⟨MolToSmiles rw :: l, by rw [editAll, hrw, hl]⟩

lemma propose_chain_variants_ok (h : String → Nat) (s : String) (δ : Int)
    (hδ : δ = 1 ∨ δ = -1) : ∃ l, propose_chain_variants h s δ = Except.ok l := by
  rcases hmol : MolFromSmiles s with _ | mol
  · exact ⟨[], by simp [propose_chain_variants, hmol]⟩
  · by_cases hms : chainMatches mol = []
    · exact ⟨[s], by simp [propose_chain_variants, hmol, hms]⟩
    · obtain ⟨l, hl⟩ :=
        editAll_ok mol δ hδ (chainMatches mol) (fun t ht => chainMatches_third_lt ht)
      refine ⟨if pySetList h l = [] then [s] else pySetList h l, ?_⟩
      simp [propose_chain_variants, hmol, hms, hl]

lemma mem_ifEmpty (h : String → Nat) (v : List String) (s a : String) :
    (a ∈ if pySetList h v = [] then [s] else pySetList h v) ↔
      (a ∈ if v = [] then [s] else v) := by
  by_cases hv : v = []
  · subst hv
    rw [if_pos rfl, if_pos ((pySetList_eq_nil_iff h []).mpr rfl)]
  · rw [if_neg hv, if_neg (fun he => hv ((pySetList_eq_nil_iff h v).mp he)), mem_pySetList]

lemma propose_chain_variants_mem (h₁ h₂ : String → Nat) (s : String) (δ : Int) (a : String)
    {l₁ l₂ : List String}
    (e₁ : propose_chain_variants h₁ s δ = Except.ok l₁)
    (e₂ : propose_chain_variants h₂ s δ = Except.ok l₂) : a ∈ l₁ ↔ a ∈ l₂ := by
  unfold propose_chain_variants at e₁ e₂
  rcases hmol : MolFromSmiles s with _ | mol <;> rw [hmol] at e₁ e₂
  · injection e₁ with e₁
    injection e₂ with e₂
    subst e₁; subst e₂
    rfl
  · simp only [] at e₁ e₂
    by_cases hms : chainMatches mol = []
    · rw [if_pos hms] at e₁ e₂
      injection e₁ with e₁
      injection e₂ with e₂
      subst e₁; subst e₂
      rfl
    · rw [if_neg hms] at e₁ e₂
      rcases hed : editAll mol δ (chainMatches mol) with e | v <;> rw [hed] at e₁ e₂
      · cases e₁
      · injection e₁ with e₁
        injection e₂ with e₂
        subst e₁; subst e₂
        exact (mem_ifEmpty h₁ v s a).trans (mem_ifEmpty h₂ v s a).symm

lemma propose_hydroxylated_mem (h₁ h₂ : String → Nat) (s a : String) :
    a ∈ propose_hydroxylated h₁ s ↔ a ∈ propose_hydroxylated h₂ s := by
  unfold propose_hydroxylated
  rcases hmol : MolFromSmiles s with _ | mol
  · exact Iff.rfl
  · exact (mem_ifEmpty h₁ _ s a).trans (mem_ifEmpty h₂ _ s a).symm

/-- C1 (amended): propose_derivatives never raises and its result always
contains the raw input string itself; the canonical form of the parsed
input is therefore present exactly when it coincides with the raw input
or with a produced variant. -/
theorem derivatives_contain_raw_input (h : String → Nat) (s : String) :
    ∃ l, propose_derivatives h s = Except.ok l ∧ s ∈ l := by
  obtain ⟨v1, hv1⟩ := propose_chain_variants_ok h s 1 (Or.inl rfl)
  obtain ⟨v2, hv2⟩ := propose_chain_variants_ok h s (-1) (Or.inr rfl)
  refine ⟨pySetList h (v1 ++ v2 ++ propose_hydroxylated h s ++ [s]), ?_, ?_⟩
  · simp [propose_derivatives, hv1, hv2]
  · rw [mem_pySetList]
    simp

/-- C1 counterexample: the input C(C)CCC parses, its canonical form is
CCCCC, yet the derivative list contains only the raw input string and
the edited variants, not the canonical form. -/
theorem derivatives_canonical_form_missing :
    MolFromSmiles "C(C)CCC" =
      some { atoms := ["C", "C", "C", "C", "C"], bonds := [(0, 1), (0, 2), (2, 3), (3, 4)] } ∧
    MolToSmiles
      { atoms := ["C", "C", "C", "C", "C"], bonds := [(0, 1), (0, 2), (2, 3), (3, 4)] } = "CCCCC" ∧
    propose_derivatives hZero "C(C)CCC" =
      Except.ok ["CCCCCC", "CCCC", "CCCCCO", "C(C)CCC"] ∧
    "CCCCC" ∉ ["CCCCCC", "CCCC", "CCCCCO", "C(C)CCC"] :=
  ⟨rfl, rfl, rfl, by decide⟩

/-- C4 (amended): on a parse failure propose_derivatives does not raise
but returns the singleton raw input, and on a valid input where neither
pattern matches it returns the singleton raw input (the canonical form
only when the input is already canonical). -/
theorem derivatives_singleton_behaviour (h : String → Nat) (s : String) :
    (MolFromSmiles s = none → propose_derivatives h s = Except.ok [s]) ∧
    (∀ m, MolFromSmiles s = some m → chainMatches m = [] → methylMatches m = [] →
      propose_derivatives h s = Except.ok [s]) := by
  constructor
  · intro hn
    have h1 : propose_chain_variants h s 1 = Except.ok [] := by
      simp [propose_chain_variants, hn]
    have h2 : propose_chain_variants h s (-1) = Except.ok [] := by
      simp [propose_chain_variants, hn]
    have h3 : propose_hydroxylated h s = [] := by
      simp [propose_hydroxylated, hn]
    simp [propose_derivatives, h1, h2, h3, pySetList, pyDedup]
  · intro m hm hcm hmethyl
    have h1 : propose_chain_variants h s 1 = Except.ok [s] := by
      simp [propose_chain_variants, hm, hcm]
    have h2 : propose_chain_variants h s (-1) = Except.ok [s] := by
      simp [propose_chain_variants, hm, hcm]
    have h3 : propose_hydroxylated h s = [s] := by
      simp [propose_hydroxylated, hm, hmethyl, pySetList, pyDedup]
    simp [propose_derivatives, h1, h2, h3, pySetList, pyDedup]

/-- Witness for C4 applied at the failing encoding and at a valid
no-match encoding. -/
theorem derivatives_singleton_behaviour_witness :
    (MolFromSmiles "C(" = none ∧ propose_derivatives hZero "C(" = Except.ok ["C("]) ∧
    propose_derivatives hZero "O(O)" = Except.ok ["O(O)"] :=
  ⟨⟨rfl, (derivatives_singleton_behaviour hZero "C(").1 rfl⟩,
    (derivatives_singleton_behaviour hZero "O(O)").2
      { atoms := ["O", "O"], bonds := [(0, 1)] } rfl rfl rfl⟩

/-- C4 counterexample: the encoding with an unclosed bracket fails to
parse, yet propose_derivatives does not fail with an error: it returns
the singleton raw input. -/
theorem derivatives_no_error_on_invalid :
    MolFromSmiles "C(" = none ∧
    propose_derivatives hZero "C(" = Except.ok ["C("] :=
  ⟨rfl, rfl⟩

/-- C5: the shrinking branch applied for delta minus one at an anchor of
heavy-atom degree above one returns the molecule unchanged and raises no
error, so the emitted variant is the canonical form of the input graph. -/
theorem chain_truncation_floor (m : Mol) (anchor : Nat) (hdeg : 1 < m.degree anchor) :
    chainEdit m anchor (-1) = Except.ok m ∧
    (chainEdit m anchor (-1)).map MolToSmiles = Except.ok (MolToSmiles m) := by
  have hne : ¬ m.degree anchor = 1 := by omega
  have hmain : chainEdit m anchor (-1) = Except.ok m := by
    norm_num [chainEdit, chainShrink, hne]
  exact ⟨hmain, by rw [hmain]; rfl⟩

/-- Witness for C5: the middle atom of propane has degree two, and the
shrink edit leaves the graph untouched. -/
theorem chain_truncation_floor_witness :
    1 < Mol.degree { atoms := ["C", "C", "C"], bonds := [(0, 1), (1, 2)] } 1 ∧
    chainEdit { atoms := ["C", "C", "C"], bonds := [(0, 1), (1, 2)] } 1 (-1) =
      Except.ok { atoms := ["C", "C", "C"], bonds := [(0, 1), (1, 2)] } :=
  ⟨by decide, (chain_truncation_floor _ 1 (by decide)).1⟩

/-- C6 failing input: pentane parses to a five-carbon chain, the
terminal-chain pattern matches with end atom four, yet the shrink edit
for delta minus two raises a range error instead of removing the last
two chain carbons: the loop neither follows the moving terminus nor
rechecks its degree, it removes the same stale index twice. -/
theorem chain_shrink_two_raises_on_pentane :
    MolFromSmiles "CCCCC" =
      some { atoms := ["C", "C", "C", "C", "C"], bonds := [(0, 1), (1, 2), (2, 3), (3, 4)] } ∧
    (2, 3, 4) ∈ chainMatches
      { atoms := ["C", "C", "C", "C", "C"], bonds := [(0, 1), (1, 2), (2, 3), (3, 4)] } ∧
    chainEdit { atoms := ["C", "C", "C", "C", "C"], bonds := [(0, 1), (1, 2), (2, 3), (3, 4)] }
      4 (-2) = Except.error "Range Error" :=
  ⟨rfl, by decide, rfl⟩

/-- C7: every list propose_derivatives returns is free of duplicate
encoding strings. -/
theorem derivatives_nodup (h : String → Nat) (s : String) (l : List String)
    (hl : propose_derivatives h s = Except.ok l) : l.Nodup := by
  obtain ⟨v1, hv1⟩ := propose_chain_variants_ok h s 1 (Or.inl rfl)
  obtain ⟨v2, hv2⟩ := propose_chain_variants_ok h s (-1) (Or.inr rfl)
  have hpd : propose_derivatives h s =
      Except.ok (pySetList h (v1 ++ v2 ++ propose_hydroxylated h s ++ [s])) := by
    simp [propose_derivatives, hv1, hv2]
  rw [hpd] at hl
  injection hl with hl
  rw [← hl]
  exact pySetList_nodup h _

/-- Witness for C7 at a concrete input with several distinct variants. -/
theorem derivatives_nodup_witness :
    propose_derivatives hZero "C(C)CCC" =
      Except.ok ["CCCCCC", "CCCC", "CCCCCO", "C(C)CCC"] ∧
    List.Nodup ["CCCCCC", "CCCC", "CCCCCO", "C(C)CCC"] :=
  ⟨rfl, derivatives_nodup hZero "C(C)CCC" _ rfl⟩

/-- C8 (amended): the set of encodings propose_derivatives returns does
not depend on the string hash seed of the run, although the order of the
returned sequence may: the results of two runs are permutations of each
other. -/
theorem derivatives_same_set_across_runs (h₁ h₂ : String → Nat) (s : String) :
    ∃ l₁ l₂, propose_derivatives h₁ s = Except.ok l₁ ∧
      propose_derivatives h₂ s = Except.ok l₂ ∧ List.Perm l₁ l₂ := by
  obtain ⟨v1, hv1⟩ := propose_chain_variants_ok h₁ s 1 (Or.inl rfl)
  obtain ⟨v2, hv2⟩ := propose_chain_variants_ok h₁ s (-1) (Or.inr rfl)
  obtain ⟨w1, hw1⟩ := propose_chain_variants_ok h₂ s 1 (Or.inl rfl)
  obtain ⟨w2, hw2⟩ := propose_chain_variants_ok h₂ s (-1) (Or.inr rfl)
  refine ⟨pySetList h₁ (v1 ++ v2 ++ propose_hydroxylated h₁ s ++ [s]),
    pySetList h₂ (w1 ++ w2 ++ propose_hydroxylated h₂ s ++ [s]),
    by simp [propose_derivatives, hv1, hv2],
    by simp [propose_derivatives, hw1, hw2], ?_⟩
  rw [List.perm_ext_iff_of_nodup (pySetList_nodup _ _) (pySetList_nodup _ _)]
  intro a
  rw [mem_pySetList, mem_pySetList]
  simp only [List.mem_append]
  have m1 := propose_chain_variants_mem h₁ h₂ s 1 a hv1 hw1
  have m2 := propose_chain_variants_mem h₁ h₂ s (-1) a hv2 hw2
  have m3 := propose_hydroxylated_mem h₁ h₂ s a
  tauto

/-- C8 counterexample: two runs whose string hashes differ (all-equal
hashes versus hashing by length) return the same derivative set for the
same input in two different orders, so the returned sequence is not
fixed across runs. -/
theorem derivatives_order_differs_across_runs :
    propose_derivatives hZero "C(C)CCC" =
      Except.ok ["CCCCCC", "CCCC", "CCCCCO", "C(C)CCC"] ∧
    propose_derivatives hLen "C(C)CCC" =
      Except.ok ["CCCC", "CCCCCC", "CCCCCO", "C(C)CCC"] ∧
    (["CCCCCC", "CCCC", "CCCCCO", "C(C)CCC"] : List String) ≠
      ["CCCC", "CCCCCC", "CCCCCO", "C(C)CCC"] :=
  ⟨rfl, rfl, by decide⟩

/-- Embedding of analyse_multiple (rdkit_analysis.py lines 221 to 235)
over an abstract per-item analysis: each encoding is analysed inside a
try block; a success appends its row, a raised error is recorded in the
log and the loop continues.  Returns the row table and the error log. -/
def analyse_multiple {Row : Type} (f : String → Except String Row) :
    List String → List Row × List (String × String)
  | [] => ([], [])
  | s :: rest =>
    let r := analyse_multiple f rest
    match f s with
    | Except.ok row => (row :: r.1, r.2)
    | Except.error e => (r.1, (s, e) :: r.2)

lemma analyse_multiple_rows {Row : Type} (f : String → Except String Row) :
    ∀ xs, (analyse_multiple f xs).1 = xs.filterMap (fun s => (f s).toOption) := by
  intro xs
  induction xs with
  | nil => rfl
  | cons s rest ih =>
    rcases hf : f s with e | row <;>
      simp [analyse_multiple, hf, List.filterMap_cons, Except.toOption, ih]

lemma analyse_multiple_logs {Row : Type} (f : String → Except String Row)
    (bad e : String) (hbad : f bad = Except.error e) (zs : List String) :
    ∀ ys, (bad, e) ∈ (analyse_multiple f (ys ++ bad :: zs)).2 := by
  intro ys
  induction ys with
  | nil => simp [analyse_multiple, hbad]
  | cons y ys ih =>
    rcases hf : f y with e2 | row <;> simp [analyse_multiple, hf]
    · right; exact ih
    · exact ih

/-- C9: batch analysis isolates per-item failures: an encoding whose
analysis raises is logged and omitted while every other row is kept (the
batch over the surrounding items is unchanged, so the batch never
aborts), and the table holds exactly one row per successfully analysed
encoding, in order. -/
theorem batch_isolates_failures {Row : Type} (f : String → Except String Row)
    (ys zs xs : List String) (bad e : String) (hbad : f bad = Except.error e) :
    (analyse_multiple f (ys ++ bad :: zs)).1 =
      (analyse_multiple f ys).1 ++ (analyse_multiple f zs).1 ∧
    (bad, e) ∈ (analyse_multiple f (ys ++ bad :: zs)).2 ∧
    (analyse_multiple f xs).1 = xs.filterMap (fun s => (f s).toOption) := by
  refine ⟨?_, analyse_multiple_logs f bad e hbad zs ys, analyse_multiple_rows f xs⟩
  rw [analyse_multiple_rows, analyse_multiple_rows, analyse_multiple_rows,
    List.filterMap_append, List.filterMap_cons]
  simp [hbad, Except.toOption]

/-- Witness for C9 on a concrete batch where the middle item raises. -/
theorem batch_isolates_failures_witness :
    (analyse_multiple (fun s => if s = "X" then Except.error "boom" else Except.ok s)
        (["a"] ++ "X" :: ["b"])).1 =
      (analyse_multiple (fun s => if s = "X" then Except.error "boom" else Except.ok s) ["a"]).1 ++
      (analyse_multiple (fun s => if s = "X" then Except.error "boom" else Except.ok s) ["b"]).1 ∧
    ("X", "boom") ∈ (analyse_multiple
        (fun s => if s = "X" then Except.error "boom" else Except.ok s)
        (["a"] ++ "X" :: ["b"])).2 ∧
    (analyse_multiple (fun s => if s = "X" then Except.error "boom" else Except.ok s)
        ["a", "X", "b"]).1 =
      (["a", "X", "b"].filterMap (fun s =>
        ((fun s => if s = "X" then Except.error "boom" else Except.ok s) s).toOption)) :=
  batch_isolates_failures (fun s => if s = "X" then Except.error "boom" else Except.ok s)
    ["a"] ["b"] ["a", "X", "b"] "X" "boom" rfl

/-- Heap reading of the edit body of propose_chain_variants: the working
molecule lives in cell `rwRef` of the store and every write of the grow
or shrink loop targets that cell; `origDeg` is the degree the source
reads from the parsed molecule. -/
def chainEditHeap (store : List Mol) (rwRef : Nat) (origDeg : Nat) (endIdx : Nat)
    (delta : Int) : Except String (List Mol) :=
  if delta > 0 then
    Except.ok (store.set rwRef (chainGrow (store.getD rwRef default) endIdx delta.toNat))
  else if delta < 0 then
    match chainShrink origDeg endIdx (-delta).toNat (store.getD rwRef default) with
    | Except.ok rw2 => Except.ok (store.set rwRef rw2)
    | Except.error e => Except.error e
  else Except.ok store

/-- Heap reading of the match loop of propose_chain_variants
(generate_derivatives.py lines 65 to 88): the parsed molecule lives in
cell `molRef`; each iteration allocates a fresh cell holding a copy of
it (line 71, the RWMol constructor), edits only that cell, and encodes
its content.  Returns the final store and the variant list. -/
def propose_chain_variants_heap (molRef : Nat) (delta : Int) :
    List (Nat × Nat × Nat) → List Mol → Except String (List Mol × List String)
  | [], store => Except.ok (store, [])
  | t :: ts, store =>
    match chainEditHeap (store ++ [store.getD molRef default]) store.length
        ((store.getD molRef default).degree t.2.2) t.2.2 delta with
    | Except.error e => Except.error e
    | Except.ok store2 =>
      match propose_chain_variants_heap molRef delta ts store2 with
      | Except.error e => Except.error e
      | Except.ok (store3, l) =>
        Except.ok (store3, MolToSmiles (store2.getD store.length default) :: l)

/-- Heap reading of propose_hydroxylated (generate_derivatives.py lines
100 to 111): the reaction builds its products as new molecules, modelled
as cells appended to the store; the input cell is only read. -/
def propose_hydroxylated_heap (store : List Mol) (molRef : Nat) :
    List Mol × List String :=
  (store ++ (methylMatches (store.getD molRef default)).map
      (fun c => hydroxylateAt (store.getD molRef default) c),
    (methylMatches (store.getD molRef default)).map
      (fun c => MolToSmiles (hydroxylateAt (store.getD molRef default) c)))

lemma getD_append_left (l l2 : List Mol) (j : Nat) (hj : j < l.length) :
    (l ++ l2).getD j default = l.getD j default := by
  rw [List.getD_eq_getElem?_getD, List.getD_eq_getElem?_getD, List.getElem?_append,
    if_pos hj]

lemma getD_set_ne (l : List Mol) (i j : Nat) (a : Mol) (hij : i ≠ j) :
    (l.set i a).getD j default = l.getD j default := by
  rw [List.getD_eq_getElem?_getD, List.getD_eq_getElem?_getD, List.getElem?_set_ne hij]

lemma chainEditHeap_frame {store store2 : List Mol} {rwRef origDeg endIdx : Nat} {δ : Int}
    (hrun : chainEditHeap store rwRef origDeg endIdx δ = Except.ok store2) :
    store2.length = store.length ∧
    ∀ j, j ≠ rwRef → store2.getD j default = store.getD j default := by
  unfold chainEditHeap at hrun
  by_cases h1 : δ > 0
  · rw [if_pos h1] at hrun
    injection hrun with hrun
    subst hrun
    exact ⟨List.length_set _ _ _, fun j hj =>
      getD_set_ne _ _ _ _ (fun he => hj he.symm)⟩
  · rw [if_neg h1] at hrun
    by_cases h2 : δ < 0
    · rw [if_pos h2] at hrun
      rcases hs : chainShrink origDeg endIdx (-δ).toNat (store.getD rwRef default)
        with e | rw2 <;> rw [hs] at hrun
      · cases hrun
      · injection hrun with hrun
        subst hrun
        exact ⟨List.length_set _ _ _, fun j hj =>
          getD_set_ne _ _ _ _ (fun he => hj he.symm)⟩
    · rw [if_neg h2] at hrun
      injection hrun with hrun
      subst hrun
      exact ⟨rfl, fun _ _ => rfl⟩

lemma pcvHeap_frame (molRef : Nat) (δ : Int) :
    ∀ (ms : List (Nat × Nat × Nat)) (store store3 : List Mol) (l : List String),
      propose_chain_variants_heap molRef δ ms store = Except.ok (store3, l) →
      ∀ j, j < store.length → store3.getD j default = store.getD j default := by
  intro ms
  induction ms with
  | nil =>
    intro store store3 l hrun j _
    unfold propose_chain_variants_heap at hrun
    injection hrun with hrun
    rw [Prod.mk.injEq] at hrun
    rw [← hrun.1]
  | cons t ts ih =>
    intro store store3 l hrun j hj
    unfold propose_chain_variants_heap at hrun
    split at hrun
    · cases hrun
    · rename_i store2 hce
      split at hrun
      · cases hrun
      · rename_i store3p lp hrec
        injection hrun with hrun
        rw [Prod.mk.injEq] at hrun
        obtain ⟨h3, _⟩ := hrun
        subst h3
        obtain ⟨hlen, hagree⟩ := chainEditHeap_frame hce
        have hj2 : j < store2.length := by
          rw [hlen, List.length_append]
          omega
        have hne : j ≠ store.length := by omega
        calc store3p.getD j default
            = store2.getD j default := ih store2 store3p lp hrec j hj2
          _ = (store ++ [store.getD molRef default]).getD j default := hagree j hne
          _ = store.getD j default := getD_append_left _ _ j hj

/-- C10: both edit routines are copy-on-edit.  The chain edit loop
allocates a fresh cell per occurrence and writes only there, so after
any run every pre-existing cell, in particular the parsed input
molecule, is unchanged; the hydroxylation products are appended as new
cells and the input cell is also unchanged. -/
theorem graph_edits_leave_input_unchanged (store : List Mol) (molRef : Nat) (δ : Int)
    (ms : List (Nat × Nat × Nat)) (store3 : List Mol) (l : List String) (j : Nat)
    (hj : j < store.length)
    (hrun : propose_chain_variants_heap molRef δ ms store = Except.ok (store3, l)) :
    store3.getD j default = store.getD j default ∧
    (propose_hydroxylated_heap store molRef).1.getD j default = store.getD j default :=
  ⟨pcvHeap_frame molRef δ ms store store3 l hrun j hj,
    getD_append_left _ _ j hj⟩

/-- Witness for C10: a shrink run over the two pentane matches allocates
two fresh cells and leaves the input cell holding pentane untouched. -/
theorem graph_edits_leave_input_unchanged_witness :
    List.getD
      [Mol.mk ["C", "C", "C", "C", "C"] [(0, 1), (1, 2), (2, 3), (3, 4)],
       Mol.mk ["C", "C", "C", "C"] [(0, 1), (1, 2), (2, 3)],
       Mol.mk ["C", "C", "C", "C"] [(0, 1), (1, 2), (2, 3)]] 0 default =
      List.getD [Mol.mk ["C", "C", "C", "C", "C"] [(0, 1), (1, 2), (2, 3), (3, 4)]] 0 default ∧
    (propose_hydroxylated_heap
        [Mol.mk ["C", "C", "C", "C", "C"] [(0, 1), (1, 2), (2, 3), (3, 4)]] 0).1.getD 0 default =
      List.getD [Mol.mk ["C", "C", "C", "C", "C"] [(0, 1), (1, 2), (2, 3), (3, 4)]] 0 default :=
  graph_edits_leave_input_unchanged
    [Mol.mk ["C", "C", "C", "C", "C"] [(0, 1), (1, 2), (2, 3), (3, 4)]]
    0 (-1) [(2, 1, 0), (2, 3, 4)]
    [Mol.mk ["C", "C", "C", "C", "C"] [(0, 1), (1, 2), (2, 3), (3, 4)],
     Mol.mk ["C", "C", "C", "C"] [(0, 1), (1, 2), (2, 3)],
     Mol.mk ["C", "C", "C", "C"] [(0, 1), (1, 2), (2, 3)]]
    ["CCCC", "CCCC"] 0 (by decide) (by rfl)
